import Mathlib

/-!
Verification of the online author-topic variational-Bayes model
(`gensim/models/onlineatvb.py`, class `OnlineAtVb`) against its
natural-language specification.

The Python source is shallowly embedded below: real-valued numerics are
embedded over `ℝ` (query-layer arithmetic, which is exactly representable,
over `ℚ`), numpy matrices become total functions `ℕ → ℕ → ℝ`, documents
become lists of `(word id, count)` pairs, and the constructor's fallible
configuration checks become an `Except` value.
-/

namespace OnlineAtVb

/-- A sparse bag-of-words document: a list of `(word id, count)` pairs,
as produced by the gensim corpus format (`doc` in the source). -/
abbrev Doc := List (ℕ × ℕ)

/-- The word ids of a document: `ids = numpy.array([id for id, _ in doc])`
(line 181 of `onlineatvb.py`). -/
def docIds (doc : Doc) : List ℕ := doc.map Prod.fst

/-- Embedding of `dict(doc).get(v, 0)` (line 251): Python `dict` keeps the
last binding of each key, so we look for the last pair whose first
component is `v`, defaulting to `0`. -/
def dictGet (doc : Doc) (v : ℕ) : ℕ :=
  ((doc.reverse.find? fun p => p.1 == v).map Prod.snd).getD 0

/-- Modelled from the spec: the external collaborator `utils.dict_from_corpus`
(not under `src/`) builds an id-to-word map "from corpus, assuming identity",
i.e. over the word ids appearing in the corpus; `num_terms` is then its
size (line 57-58). -/
def numTermsFromCorpus (corpus : List Doc) : ℕ :=
  ((corpus.flatMap fun doc => doc.map Prod.fst).dedup).length

/-- The vocabulary size computed by the constructor (lines 55-62): if no
`id2word` is given it is derived from the corpus; if `id2word` is a
non-empty map it is `1 + max(id2word.keys())`; an empty map gives `0`.
`id2word` is embedded by its list of keys. -/
def numTermsOf (corpus : Option (List Doc)) (id2word : Option (List ℕ)) : ℕ :=
  match id2word with
  | none => numTermsFromCorpus (corpus.getD [])
  | some keys => if 0 < keys.length then 1 + keys.foldr max 0 else 0

/-- Derivation of `doc2author` from `author2doc` (lines 74-82): for each
document index `d` of the corpus, the authors `a` with `d ∈ author2doc[a]`,
in map order. Author maps are embedded as association lists. -/
def deriveDoc2author (corpus : List Doc) (author2doc : List (ℕ × List ℕ)) :
    List (ℕ × List ℕ) :=
  (List.range corpus.length).map fun d =>
    (d, (author2doc.filter fun p => d ∈ p.2).map Prod.fst)

/-- Derivation of `author2doc` from `doc2author` (lines 83-98): the source
collects the set of author ids, but then iterates `for a in
range(len(authors_ids))`, so the constructed keys are `0, ..., n-1`
regardless of which author ids actually occur. -/
def deriveAuthor2doc (doc2author : List (ℕ × List ℕ)) : List (ℕ × List ℕ) :=
  let authorsIds := (doc2author.flatMap Prod.snd).dedup
  (List.range authorsIds.length).map fun a =>
    (a, (doc2author.filter fun p => a ∈ p.2).map Prod.fst)

/-- The distinct failure modes of `OnlineAtVb.__init__`: the three explicit
`ValueError`s (lines 52, 65, 70) and the `TypeError` hit when `corpus` is
`None` and execution reaches `enumerate(corpus)` (line 77) or
`len(corpus)` (line 127). -/
inductive InitError where
  | noVocabSource
  | emptyVocab
  | noAuthorMap
  | noneCorpus
deriving DecidableEq, Repr

/-- Embedding of the configuration logic of `OnlineAtVb.__init__`
(lines 50-127), in source order: the corpus/id2word check, the
vocabulary-size check, the author-map check, the derivation of the missing
author map, and finally `self.num_docs = len(corpus)`.  On success it
returns `(num_terms, author2doc, doc2author, num_docs)`. -/
def initResult (corpus : Option (List Doc)) (id2word : Option (List ℕ))
    (author2doc doc2author : Option (List (ℕ × List ℕ))) :
    Except InitError (ℕ × List (ℕ × List ℕ) × List (ℕ × List ℕ) × ℕ) :=
  if corpus = none ∧ id2word = none then .error .noVocabSource
  else
    let numTerms := numTermsOf corpus id2word
    if numTerms = 0 then .error .emptyVocab
    else if author2doc = none ∧ doc2author = none then .error .noAuthorMap
    else
      match corpus with
      | none => .error .noneCorpus
      | some cs =>
        let d2a := match doc2author with
          | none => deriveDoc2author cs (author2doc.getD [])
          | some m => m
        let a2d := match author2doc with
          | none => deriveAuthor2doc (doc2author.getD [])
          | some m => m
        .ok (numTerms, a2d, d2a, cs.length)

/-- Embedding of `OnlineAtVb.get_author_topics` (lines 437-454) for a given
author row of `gamma` and an explicitly supplied `minimum_probability`:
clamp the threshold to at least `1e-8`, normalize the row, and keep the
`(topic id, value)` pairs with value at least the threshold, in
enumeration order. -/
def getAuthorTopics (gammaRow : List ℚ) (minimumProbability : ℚ) : List (ℕ × ℚ) :=
  let minProb := max minimumProbability (1 / 100000000)
  let topicDist := gammaRow.map fun x => x / gammaRow.sum
  topicDist.enum.filter fun p => decide (minProb ≤ p.2)

/-- Embedding of `OnlineAtVb.rho` (lines 137-138):
`pow(self.offset + t, -self.decay)`. -/
noncomputable def rho (offset decay : ℝ) (t : ℕ) : ℝ :=
  (offset + t) ^ (-decay)

/-- Numpy matrices are embedded as total functions on indices; entries
outside the declared shape are simply never written or read. -/
abbrev Mat := ℕ → ℕ → ℝ

/-- The model data that `OnlineAtVb.inference` reads: hyperparameters
(`alpha` and `eta` hold the uniform values `1/num_topics` and
`1/num_terms` of lines 116-117), the author bookkeeping, and the external
collaborator `dirichlet_expectation` (from `gensim.models.ldamodel`, not
under `src/`), kept abstract as a matrix transformer `DE`. -/
structure ATModel where
  numTopics : ℕ
  numDocs : ℕ
  alpha : ℝ
  eta : ℝ
  offset : ℝ
  decay : ℝ
  a2dLen : ℕ → ℕ
  doc2author : ℕ → List ℕ
  DE : Mat → Mat

/-- The mutable local state of the per-document inner loop: `var_phi`,
`var_mu`, `tilde_gamma`, and also `var_lambda` and `tilde_lambda`, since
lines 249-252 of the source write `var_lambda` (not `tilde_lambda`)
inside the inner loop. -/
structure LocState where
  phi : Mat
  mu : Mat
  tg : Mat
  vl : Mat
  tl : Mat

/-- Initialization of `mu` at the start of a document (lines 189-192):
`var_mu[(v, a)] = 1 / len(authors_d)` for the document's words and
authors, and absent (here: `0`) elsewhere. -/
noncomputable def muInit (ids authors : List ℕ) : Mat :=
  fun v a => if v ∈ ids ∧ a ∈ authors then 1 / (authors.length : ℝ) else 0

/-- The unnormalized phi value of lines 203-211:
`exp(sum_a mu[(v,a)] * Elogtheta[a,k]) * expElogbeta[k,v]`. -/
noncomputable def phiUnnorm (authors : List ℕ) (Elogtheta Elogbeta : Mat)
    (mu : Mat) (v k : ℕ) : ℝ :=
  Real.exp ((authors.map fun a => mu v a * Elogtheta a k).sum) *
    Real.exp (Elogbeta k v)

/-- The phi update (lines 200-214): for each word `v` of the document,
write the unnormalized value for every topic `k < num_topics`, then
normalize the row by its sum. -/
noncomputable def phiStep (M : ATModel) (ids authors : List ℕ)
    (Elogtheta Elogbeta : Mat) (mu phi : Mat) : Mat :=
  fun v k =>
    if v ∈ ids ∧ k < M.numTopics then
      phiUnnorm authors Elogtheta Elogbeta mu v k /
        ∑ j ∈ Finset.range M.numTopics, phiUnnorm authors Elogtheta Elogbeta mu v j
    else phi v k

/-- The unnormalized mu value of lines 222-230:
`exp(sum_k phi[v,k] * Elogtheta[a,k])`. -/
noncomputable def muUnnorm (M : ATModel) (Elogtheta : Mat) (phi : Mat)
    (v a : ℕ) : ℝ :=
  Real.exp (∑ k ∈ Finset.range M.numTopics, phi v k * Elogtheta a k)

/-- The mu update (lines 216-236): for each word `v` of the document and
author `a` of the document, the unnormalized value divided by its sum over
the document's authors (`mu_sum`, applied as `*= 1.0 / mu_sum`; the
document's author list is assumed duplicate-free, as asserted by the
theorems that use this step). -/
noncomputable def muStep (M : ATModel) (ids authors : List ℕ)
    (Elogtheta : Mat) (phi mu : Mat) : Mat :=
  fun v a =>
    if v ∈ ids ∧ a ∈ authors then
      muUnnorm M Elogtheta phi v a /
        (authors.map fun b => muUnnorm M Elogtheta phi v b).sum
    else mu v a

/-- The `tilde_gamma` update (lines 238-245): for each author `a` of the
document and topic `k`, accumulate `cts[vi] * mu[(v,a)] * phi[v,k]` over
the document's `(word, count)` pairs, multiply by `len(author2doc[a])`,
and add `alpha`. -/
noncomputable def gammaStep (M : ATModel) (doc : Doc) (authors : List ℕ)
    (mu phi tg : Mat) : Mat :=
  fun a k =>
    if a ∈ authors ∧ k < M.numTopics then
      M.alpha + (M.a2dLen a : ℝ) *
        (doc.map fun p => (p.2 : ℝ) * mu p.1 a * phi p.1 k).sum
    else tg a k

/-- The lambda update of lines 247-252, exactly as written in the source:
it assigns `self.eta + self.num_docs * cnt * var_phi[v, k]` with
`cnt = dict(doc).get(v, 0)` into the **global** `var_lambda[k, v]`
(the line updating `tilde_lambda` is commented out in the source). -/
noncomputable def lambdaStep (M : ATModel) (doc : Doc) (phi vl : Mat) : Mat :=
  fun k v =>
    if k < M.numTopics ∧ v ∈ docIds doc then
      M.eta + (M.numDocs : ℝ) * (dictGet doc v : ℝ) * phi v k
    else vl k v

/-- One inner iteration of the local variational solver (lines 194-252),
in source order: phi update, mu update, `tilde_gamma` update, lambda
update; `tilde_lambda` is carried through untouched, as in the source. -/
noncomputable def innerIter (M : ATModel) (doc : Doc) (authors : List ℕ)
    (Elogtheta Elogbeta : Mat) (l : LocState) : LocState :=
  let ids := docIds doc
  let phi1 := phiStep M ids authors Elogtheta Elogbeta l.mu l.phi
  let mu1 := muStep M ids authors Elogtheta phi1 l.mu
  let tg1 := gammaStep M doc authors mu1 phi1 l.tg
  let vl1 := lambdaStep M doc phi1 l.vl
  ⟨phi1, mu1, tg1, vl1, l.tl⟩

/-- The global state carried between documents by `inference`: the global
matrices `var_gamma` and `var_lambda`, the tilde matrices, and `var_phi`
(allocated once at line 157 and reused across documents). -/
structure InfState where
  varGamma : Mat
  varLambda : Mat
  tildeGamma : Mat
  tildeLambda : Mat
  varPhi : Mat

/-- The local state reached after `n` inner iterations on one document
(lines 180-266): `Elogtheta`/`Elogbeta` are taken from the current global
matrices (they are kept in sync with them at every document boundary by
lines 164-167 and 283-286), `mu` is freshly initialized, and the remaining
local state starts from the carried `var_phi`, `tilde_gamma`,
`var_lambda`, `tilde_lambda`. -/
noncomputable def docLocal (M : ATModel) (d : ℕ) (doc : Doc) (n : ℕ)
    (s : InfState) : LocState :=
  (innerIter M doc (M.doc2author d) (M.DE s.varGamma) (M.DE s.varLambda))^[n]
    ⟨s.varPhi, muInit (docIds doc) (M.doc2author d), s.tildeGamma,
      s.varLambda, s.tildeLambda⟩

/-- Processing of one document at step `t` (lines 180-286): run the inner
loop, then blend with step size `rho(t)` (lines 276-281): `var_gamma` over
the full matrix, `var_lambda` only on the document's word-id columns.
The parameter `n` is the number of inner iterations actually executed; the
data-dependent convergence break of lines 257-265 exits at an iteration
boundary, so its effect is exactly some `n ≤ iterations`. -/
noncomputable def processDocN (M : ATModel) (d : ℕ) (doc : Doc) (t n : ℕ)
    (s : InfState) : InfState :=
  let l := docLocal M d doc n s
  let rhot := rho M.offset M.decay t
  { varGamma := fun a k => (1 - rhot) * s.varGamma a k + rhot * l.tg a k
    varLambda := fun k v =>
      if v ∈ docIds doc then (1 - rhot) * l.vl k v + rhot * l.tl k v
      else l.vl k v
    tildeGamma := l.tg
    tildeLambda := l.tl
    varPhi := l.phi }

/-- One scheduled per-document step of the outer loops: the document index
`d` and content `doc`, the global step counter `t`, and the number `n` of
inner iterations run before the convergence break. -/
structure DocStep where
  d : ℕ
  doc : Doc
  t : ℕ
  n : ℕ

/-- The outer loops of `inference` (lines 177-308): a fold of per-document
steps over an arbitrary schedule, which covers any number of passes over
the corpus with the global counter `t` incrementing across passes. -/
noncomputable def runSchedule (M : ATModel) (steps : List DocStep)
    (s : InfState) : InfState :=
  steps.foldl (fun st stp => processDocN M stp.d stp.doc stp.t stp.n st) s

/-- Entrywise strict positivity of a matrix. -/
def Pos (A : Mat) : Prop := ∀ i j, 0 < A i j

/-- Positivity of the global state: the global and document-local Dirichlet
parameter matrices are entrywise strictly positive (the Gamma-sampled
initial values of lines 151-154 and their copies at lines 159-162 are). -/
def PosState (s : InfState) : Prop :=
  Pos s.varGamma ∧ Pos s.varLambda ∧ Pos s.tildeGamma ∧ Pos s.tildeLambda

/-- A tiny concrete model used to instantiate hypotheses of the theorems
below: one topic, one document, one author, abstract Dirichlet expectation
constantly zero. -/
def M0 : ATModel where
  numTopics := 1
  numDocs := 1
  alpha := 1
  eta := 1
  offset := 1
  decay := 1
  a2dLen := fun _ => 1
  doc2author := fun _ => [0]
  DE := fun _ => fun _ _ => 0

/-- A concrete all-ones global state for the same purpose. -/
def s0 : InfState :=
  ⟨fun _ _ => 1, fun _ _ => 1, fun _ _ => 1, fun _ _ => 1, fun _ _ => 1⟩

lemma s0_posState : PosState s0 :=
  ⟨fun _ _ => zero_lt_one, fun _ _ => zero_lt_one,
   fun _ _ => zero_lt_one, fun _ _ => zero_lt_one⟩

section RhoLemmas

lemma rho_pos {offset : ℝ} (decay : ℝ) (hoff : 0 < offset) (t : ℕ) :
    0 < rho offset decay t :=
  Real.rpow_pos_of_pos (by positivity) _

lemma rho_le_one {offset decay : ℝ} (hoff : 1 ≤ offset) (hdec : 0 < decay)
    (t : ℕ) : rho offset decay t ≤ 1 :=
  Real.rpow_le_one_of_one_le_of_nonpos
    (le_trans hoff (le_add_of_nonneg_right (Nat.cast_nonneg t)))
    (neg_nonpos.mpr hdec.le)

lemma rho_lt_rho {offset decay : ℝ} (hoff : 0 < offset) (hdec : 0 < decay)
    {s t : ℕ} (h : s < t) : rho offset decay t < rho offset decay s := by
  have hs : (0 : ℝ) < offset + s := by positivity
  have ht : (0 : ℝ) < offset + t := by positivity
  have hst : (offset + (s : ℝ)) < offset + t := by
    have := (Nat.cast_lt (α := ℝ)).mpr h
    linarith
  unfold rho
  rw [Real.rpow_neg ht.le, Real.rpow_neg hs.le]
  exact inv_strictAnti₀ (Real.rpow_pos_of_pos hs _)
    (Real.rpow_lt_rpow hs.le hst hdec)

end RhoLemmas

/-- C4 counterexample: the claim asserts `rho(t) ∈ (0,1]` whenever
`offset > 0` and `decay ∈ (0,1]`, but at `offset = 1/2`, `decay = 1`
and `t = 0` the hypotheses hold while `rho(0) = 2 > 1`. -/
theorem C4_counterexample :
    0 < (1 / 2 : ℝ) ∧ 0 < (1 : ℝ) ∧ (1 : ℝ) ≤ 1 ∧ 1 < rho (1 / 2) 1 0 := by
  refine ⟨by norm_num, one_pos, le_refl 1, ?_⟩
  have h : rho (1 / 2 : ℝ) 1 0 = 2 := by
    unfold rho
    rw [Nat.cast_zero, add_zero, Real.rpow_neg_one]
    norm_num
  rw [h]
  norm_num

/-- C4 (amended): for `offset > 0` and `decay ∈ (0,1]`, the learning rate
`rho(t) = (offset + t)^(-decay)` is strictly positive and strictly
decreasing in `t`; if moreover `offset ≥ 1`, then `rho(t) ≤ 1`, i.e.
`rho(t) ∈ (0,1]`. -/
theorem C4_rho_range_and_decreasing (offset decay : ℝ) (hoff : 0 < offset)
    (hdec : 0 < decay) (_hdec1 : decay ≤ 1) :
    (∀ t : ℕ, 0 < rho offset decay t) ∧
    (∀ s t : ℕ, s < t → rho offset decay t < rho offset decay s) ∧
    (1 ≤ offset → ∀ t : ℕ, rho offset decay t ≤ 1) :=
  ⟨fun t => rho_pos decay hoff t,
   fun _ _ h => rho_lt_rho hoff hdec h,
   fun h1 t => rho_le_one h1 hdec t⟩

/-- C4 witness: the amended theorem applied at `offset = 1`, `decay = 1`,
`t = 1`. -/
theorem C4_witness :
    0 < (1 : ℝ) ∧ (1 : ℝ) ≤ 1 ∧
    (0 < rho 1 1 1 ∧ rho 1 1 1 < rho 1 1 0 ∧ rho 1 1 1 ≤ 1) := by
  obtain ⟨h1, h2, h3⟩ := C4_rho_range_and_decreasing 1 1 one_pos one_pos le_rfl
  exact ⟨one_pos, le_rfl, h1 1, h2 0 1 one_pos, h3 le_rfl 1⟩

section IterateLemmas

variable (M : ATModel) (doc : Doc) (authors : List ℕ) (Elogtheta Elogbeta : Mat)

lemma innerIter_tl (l : LocState) :
    (innerIter M doc authors Elogtheta Elogbeta l).tl = l.tl := rfl

lemma innerIter_iterate_tl (n : ℕ) (l : LocState) :
    ((innerIter M doc authors Elogtheta Elogbeta)^[n] l).tl = l.tl := by
  induction n with
  | zero => rfl
  | succ n ih => rw [Function.iterate_succ_apply', innerIter_tl, ih]

lemma innerIter_vl_frame (l : LocState) {k v : ℕ} (hv : v ∉ docIds doc) :
    (innerIter M doc authors Elogtheta Elogbeta l).vl k v = l.vl k v := by
  show lambdaStep M doc _ l.vl k v = l.vl k v
  unfold lambdaStep
  exact if_neg fun h => hv h.2

lemma innerIter_iterate_vl_frame (n : ℕ) (l : LocState) {k v : ℕ}
    (hv : v ∉ docIds doc) :
    ((innerIter M doc authors Elogtheta Elogbeta)^[n] l).vl k v = l.vl k v := by
  induction n with
  | zero => rfl
  | succ n ih => rw [Function.iterate_succ_apply', innerIter_vl_frame _ _ _ _ _ _ hv, ih]

end IterateLemmas

/-- C1: contrary to the claim (and to the spec), the per-document
processing never writes `tilde_lambda`: the inner loop of lines 249-252
assigns the update `eta + num_docs * cnt * phi[v,k]` directly into the
global `var_lambda`, and `tilde_lambda` keeps whatever value it had before
the document (its initial Gamma sample), so the blend of line 281 mixes a
stale `tilde_lambda` into the word-id columns. -/
theorem C1_tildeLambda_never_updated (M : ATModel) (d : ℕ) (doc : Doc)
    (t n : ℕ) (s : InfState) :
    (processDocN M d doc t n s).tildeLambda = s.tildeLambda := by
  show (docLocal M d doc n s).tl = s.tildeLambda
  exact innerIter_iterate_tl _ _ _ _ _ n _

/-- C6: a column of the global `lambda` whose word id does not occur in
the document is left unchanged by the entire processing of that document:
both the inner-loop lambda write (lines 249-252) and the blend
(line 281) only touch the columns in `ids`. -/
theorem C6_untouched_columns_unchanged (M : ATModel) (d : ℕ) (doc : Doc)
    (t n : ℕ) (s : InfState) (k v : ℕ) (hv : v ∉ docIds doc) :
    (processDocN M d doc t n s).varLambda k v = s.varLambda k v := by
  show (if v ∈ docIds doc then _ else (docLocal M d doc n s).vl k v) = s.varLambda k v
  rw [if_neg hv]
  exact innerIter_iterate_vl_frame _ _ _ _ _ n _ hv

/-- C6 witness: the theorem applied to the concrete model `M0`, the
document `[(0, 1)]` and word id `1`, which does not occur in it. -/
theorem C6_witness :
    (1 ∉ docIds [(0, 1)]) ∧
    (processDocN M0 0 [(0, 1)] 0 1 s0).varLambda 0 1 = s0.varLambda 0 1 :=
  ⟨by decide, C6_untouched_columns_unchanged M0 0 [(0, 1)] 0 1 s0 0 1 (by decide)⟩

section Positivity

lemma phiUnnorm_pos (authors : List ℕ) (Elogtheta Elogbeta : Mat)
    (mu : Mat) (v k : ℕ) : 0 < phiUnnorm authors Elogtheta Elogbeta mu v k :=
  mul_pos (Real.exp_pos _) (Real.exp_pos _)

lemma phiStep_apply_nonneg (M : ATModel) (ids authors : List ℕ)
    (Elogtheta Elogbeta : Mat) (mu phi : Mat) {v k : ℕ}
    (hv : v ∈ ids) (hk : k < M.numTopics) :
    0 ≤ phiStep M ids authors Elogtheta Elogbeta mu phi v k := by
  unfold phiStep
  rw [if_pos ⟨hv, hk⟩]
  exact div_nonneg (phiUnnorm_pos authors Elogtheta Elogbeta mu v k).le
    (Finset.sum_nonneg fun j _ => (phiUnnorm_pos authors Elogtheta Elogbeta mu v j).le)

lemma muStep_apply_nonneg (M : ATModel) (ids authors : List ℕ)
    (Elogtheta : Mat) (phi mu : Mat) {v a : ℕ}
    (hv : v ∈ ids) (ha : a ∈ authors) :
    0 ≤ muStep M ids authors Elogtheta phi mu v a := by
  unfold muStep
  rw [if_pos ⟨hv, ha⟩]
  exact div_nonneg (Real.exp_pos _).le
    (List.sum_nonneg fun x hx => by
      obtain ⟨b, _, rfl⟩ := List.mem_map.mp hx
      exact (Real.exp_pos _).le)

lemma gammaStep_pos (M : ATModel) (doc : Doc) (authors : List ℕ)
    (mu phi tg : Mat) (hα : 0 < M.alpha) (htg : Pos tg)
    (hmu : ∀ p ∈ doc, ∀ a ∈ authors, 0 ≤ mu p.1 a)
    (hphi : ∀ p ∈ doc, ∀ k, k < M.numTopics → 0 ≤ phi p.1 k) :
    Pos (gammaStep M doc authors mu phi tg) := by
  intro a k
  unfold gammaStep
  split
  case isTrue h =>
    have hsum : 0 ≤ (doc.map fun p => (p.2 : ℝ) * mu p.1 a * phi p.1 k).sum := by
      apply List.sum_nonneg
      intro x hx
      obtain ⟨p, hp, rfl⟩ := List.mem_map.mp hx
      exact mul_nonneg (mul_nonneg (Nat.cast_nonneg _) (hmu p hp a h.1))
        (hphi p hp k h.2)
    have := mul_nonneg (Nat.cast_nonneg (M.a2dLen a) (α := ℝ)) hsum
    linarith
  case isFalse => exact htg a k

lemma lambdaStep_pos (M : ATModel) (doc : Doc) (phi vl : Mat)
    (hη : 0 < M.eta) (hvl : Pos vl)
    (hphi : ∀ v ∈ docIds doc, ∀ k, k < M.numTopics → 0 ≤ phi v k) :
    Pos (lambdaStep M doc phi vl) := by
  intro k v
  unfold lambdaStep
  split
  case isTrue h =>
    have h0 : (0 : ℝ) ≤ (M.numDocs : ℝ) * (dictGet doc v : ℝ) :=
      mul_nonneg (Nat.cast_nonneg M.numDocs) (Nat.cast_nonneg (dictGet doc v))
    have := mul_nonneg h0 (hphi v h.2 k h.1)
    linarith
  case isFalse => exact hvl k v

lemma innerIter_pos (M : ATModel) (doc : Doc) (authors : List ℕ)
    (Elogtheta Elogbeta : Mat) (hα : 0 < M.alpha) (hη : 0 < M.eta)
    (l : LocState) (htg : Pos l.tg) (hvl : Pos l.vl) :
    Pos (innerIter M doc authors Elogtheta Elogbeta l).tg ∧
    Pos (innerIter M doc authors Elogtheta Elogbeta l).vl := by
  constructor
  · show Pos (gammaStep M doc authors _ _ l.tg)
    apply gammaStep_pos M doc authors _ _ l.tg hα htg
    · intro p hp a ha
      exact muStep_apply_nonneg _ _ _ _ _ _
        (List.mem_map_of_mem Prod.fst hp) ha
    · intro p hp k hk
      exact phiStep_apply_nonneg _ _ _ _ _ _ _
        (List.mem_map_of_mem Prod.fst hp) hk
  · show Pos (lambdaStep M doc _ l.vl)
    apply lambdaStep_pos M doc _ l.vl hη hvl
    intro v hv k hk
    exact phiStep_apply_nonneg _ _ _ _ _ _ _ hv hk

lemma innerIter_iterate_pos (M : ATModel) (doc : Doc) (authors : List ℕ)
    (Elogtheta Elogbeta : Mat) (hα : 0 < M.alpha) (hη : 0 < M.eta)
    (n : ℕ) (l : LocState) (htg : Pos l.tg) (hvl : Pos l.vl) :
    Pos ((innerIter M doc authors Elogtheta Elogbeta)^[n] l).tg ∧
    Pos ((innerIter M doc authors Elogtheta Elogbeta)^[n] l).vl := by
  induction n with
  | zero => exact ⟨htg, hvl⟩
  | succ n ih =>
    rw [Function.iterate_succ_apply']
    exact innerIter_pos _ _ _ _ _ hα hη _ ih.1 ih.2

lemma processDocN_posState (M : ATModel) (hα : 0 < M.alpha) (hη : 0 < M.eta)
    (hoff : 1 ≤ M.offset) (hdec : 0 < M.decay) (d : ℕ) (doc : Doc)
    (t n : ℕ) (s : InfState) (hs : PosState s) :
    PosState (processDocN M d doc t n s) := by
  obtain ⟨hgam, hlam, htgam, htlam⟩ := hs
  have hρ0 : 0 < rho M.offset M.decay t :=
    rho_pos _ (lt_of_lt_of_le one_pos hoff) t
  have hρ1 : rho M.offset M.decay t ≤ 1 := rho_le_one hoff hdec t
  have hiter := innerIter_iterate_pos M doc (M.doc2author d)
    (M.DE s.varGamma) (M.DE s.varLambda) hα hη n
    ⟨s.varPhi, muInit (docIds doc) (M.doc2author d), s.tildeGamma,
      s.varLambda, s.tildeLambda⟩ htgam hlam
  have htl : (docLocal M d doc n s).tl = s.tildeLambda :=
    innerIter_iterate_tl _ _ _ _ _ n _
  have hltg : Pos (docLocal M d doc n s).tg := hiter.1
  have hlvl : Pos (docLocal M d doc n s).vl := hiter.2
  refine ⟨?_, ?_, ?_, ?_⟩
  · intro a k
    show 0 < (1 - rho M.offset M.decay t) * s.varGamma a k +
      rho M.offset M.decay t * (docLocal M d doc n s).tg a k
    have h1 : 0 ≤ (1 - rho M.offset M.decay t) * s.varGamma a k :=
      mul_nonneg (by linarith) (hgam a k).le
    have h2 : 0 < rho M.offset M.decay t * (docLocal M d doc n s).tg a k :=
      mul_pos hρ0 (hltg a k)
    linarith
  · intro k v
    show 0 < (if v ∈ docIds doc then
      (1 - rho M.offset M.decay t) * (docLocal M d doc n s).vl k v +
        rho M.offset M.decay t * (docLocal M d doc n s).tl k v
      else (docLocal M d doc n s).vl k v)
    split
    case isTrue =>
      have h1 : 0 ≤ (1 - rho M.offset M.decay t) * (docLocal M d doc n s).vl k v :=
        mul_nonneg (by linarith) (hlvl k v).le
      have h2 : 0 < rho M.offset M.decay t * (docLocal M d doc n s).tl k v := by
        rw [htl]
        exact mul_pos hρ0 (htlam k v)
      linarith
    case isFalse => exact hlvl k v
  · exact hltg
  · intro k v
    show 0 < (docLocal M d doc n s).tl k v
    rw [htl]
    exact htlam k v

end Positivity

/-- C3: entrywise strict positivity of the global `gamma` and `lambda`
(together with the tilde matrices, whose positivity the blend step feeds
on) is preserved by each per-document update step, and hence by any
schedule of such steps, i.e. any number of passes; starting from the
Gamma-sampled (hence positive) initial values, the global matrices stay
strictly positive throughout inference.  The hypotheses on `offset` and
`decay` are the spec's own data-model constraint `rho(t) ∈ (0,1]`, and
`alpha`, `eta` are positive as set on lines 116-117. -/
theorem C3_positivity_invariant (M : ATModel) (hα : 0 < M.alpha)
    (hη : 0 < M.eta) (hoff : 1 ≤ M.offset) (hdec : 0 < M.decay) :
    (∀ d doc t n s, PosState s → PosState (processDocN M d doc t n s)) ∧
    (∀ steps s, PosState s → PosState (runSchedule M steps s)) := by
  refine ⟨fun d doc t n s hs => processDocN_posState M hα hη hoff hdec d doc t n s hs, ?_⟩
  intro steps
  induction steps with
  | nil => exact fun s hs => hs
  | cons stp rest ih =>
    intro s hs
    show PosState (runSchedule M rest (processDocN M stp.d stp.doc stp.t stp.n s))
    exact ih _ (processDocN_posState M hα hη hoff hdec _ _ _ _ _ hs)

/-- C3 witness: the theorem applied to the concrete model `M0` and the
all-ones positive state `s0`, processing document `[(0, 1)]` and then a
two-step schedule. -/
theorem C3_witness :
    0 < M0.alpha ∧ 0 < M0.eta ∧ 1 ≤ M0.offset ∧ 0 < M0.decay ∧ PosState s0 ∧
    PosState (processDocN M0 0 [(0, 1)] 0 1 s0) ∧
    PosState (runSchedule M0 [⟨0, [(0, 1)], 0, 1⟩, ⟨0, [(1, 2)], 1, 1⟩] s0) := by
  obtain ⟨h1, h2⟩ := C3_positivity_invariant M0 zero_lt_one zero_lt_one
    le_rfl zero_lt_one
  exact ⟨zero_lt_one, zero_lt_one, le_rfl, zero_lt_one, s0_posState,
    h1 0 [(0, 1)] 0 1 s0 s0_posState,
    h2 [⟨0, [(0, 1)], 0, 1⟩, ⟨0, [(1, 2)], 1, 1⟩] s0 s0_posState⟩

section Normalization

lemma list_sum_map_div (l : List ℕ) (g : ℕ → ℝ) (c : ℝ) :
    (l.map fun a => g a / c).sum = (l.map g).sum / c := by
  induction l with
  | nil => simp
  | cons x xs ih => simp [ih, add_div]

lemma phiStep_row_sum (M : ATModel) (ids authors : List ℕ)
    (Elogtheta Elogbeta : Mat) (mu phi : Mat) {v : ℕ}
    (hv : v ∈ ids) (hK : 0 < M.numTopics) :
    ∑ k ∈ Finset.range M.numTopics,
      phiStep M ids authors Elogtheta Elogbeta mu phi v k = 1 := by
  have hS : 0 < ∑ j ∈ Finset.range M.numTopics,
      phiUnnorm authors Elogtheta Elogbeta mu v j :=
    Finset.sum_pos (fun j _ => phiUnnorm_pos _ _ _ _ _ _)
      (Finset.nonempty_range_iff.mpr hK.ne')
  have hterm : ∀ k ∈ Finset.range M.numTopics,
      phiStep M ids authors Elogtheta Elogbeta mu phi v k =
        phiUnnorm authors Elogtheta Elogbeta mu v k /
          ∑ j ∈ Finset.range M.numTopics,
            phiUnnorm authors Elogtheta Elogbeta mu v j := by
    intro k hk
    unfold phiStep
    rw [if_pos ⟨hv, Finset.mem_range.mp hk⟩]
  rw [Finset.sum_congr rfl hterm, ← Finset.sum_div]
  exact div_self hS.ne'

lemma muStep_row_sum (M : ATModel) (ids authors : List ℕ)
    (Elogtheta : Mat) (phi mu : Mat) {v : ℕ}
    (hv : v ∈ ids) (hne : authors ≠ []) :
    (authors.map fun a => muStep M ids authors Elogtheta phi mu v a).sum = 1 := by
  have hS : 0 < (authors.map fun b => muUnnorm M Elogtheta phi v b).sum := by
    apply List.sum_pos
    · intro x hx
      obtain ⟨b, _, rfl⟩ := List.mem_map.mp hx
      exact Real.exp_pos _
    · simpa using hne
  have hterm : (authors.map fun a => muStep M ids authors Elogtheta phi mu v a) =
      authors.map fun a => muUnnorm M Elogtheta phi v a /
        (authors.map fun b => muUnnorm M Elogtheta phi v b).sum := by
    apply List.map_congr_left
    intro a ha
    unfold muStep
    rw [if_pos ⟨hv, ha⟩]
  rw [hterm, list_sum_map_div]
  exact div_self hS.ne'

end Normalization

/-- C5: in every inner iteration, after the phi update each word's topic
row sums to 1 over the topics, and after the mu update each word's author
weights sum to 1 over the document's authors; the unnormalized values are
exponentials, so their sums are nonzero as soon as there is at least one
topic, respectively one author. -/
theorem C5_phi_mu_rows_normalized (M : ATModel) (doc : Doc)
    (authors : List ℕ) (Elogtheta Elogbeta : Mat) (l : LocState) :
    (∀ v ∈ docIds doc, 0 < M.numTopics →
      ∑ k ∈ Finset.range M.numTopics,
        (innerIter M doc authors Elogtheta Elogbeta l).phi v k = 1) ∧
    (∀ v ∈ docIds doc, authors ≠ [] →
      (authors.map fun a =>
        (innerIter M doc authors Elogtheta Elogbeta l).mu v a).sum = 1) := by
  constructor
  · intro v hv hK
    show ∑ k ∈ Finset.range M.numTopics,
      phiStep M (docIds doc) authors Elogtheta Elogbeta l.mu l.phi v k = 1
    exact phiStep_row_sum M (docIds doc) authors Elogtheta Elogbeta l.mu l.phi hv hK
  · intro v hv hne
    show (authors.map fun a => muStep M (docIds doc) authors Elogtheta
      (phiStep M (docIds doc) authors Elogtheta Elogbeta l.mu l.phi) l.mu v a).sum = 1
    exact muStep_row_sum M (docIds doc) authors Elogtheta _ l.mu hv hne

/-- A concrete abstract-expectation matrix and local state used by the
witnesses below. -/
def E0 : Mat := fun _ _ => 0

/-- A concrete local state for the witnesses. -/
def l0 : LocState :=
  ⟨fun _ _ => 0, fun _ _ => 0, fun _ _ => 1, fun _ _ => 1, fun _ _ => 1⟩

/-- C5 witness: the theorem applied to the concrete model `M0`, document
`[(0, 1)]`, authors `[0]`. -/
theorem C5_witness :
    (0 ∈ docIds [(0, 1)]) ∧ 0 < M0.numTopics ∧ ([0] : List ℕ) ≠ [] ∧
    (∑ k ∈ Finset.range M0.numTopics,
      (innerIter M0 [(0, 1)] [0] E0 E0 l0).phi 0 k = 1) ∧
    (([0] : List ℕ).map fun a =>
      (innerIter M0 [(0, 1)] [0] E0 E0 l0).mu 0 a).sum = 1 := by
  obtain ⟨h1, h2⟩ := C5_phi_mu_rows_normalized M0 [(0, 1)] [0] E0 E0 l0
  exact ⟨by decide, by decide, by decide,
    h1 0 (by decide) (by decide), h2 0 (by decide) (by decide)⟩

section DictGet

lemma find?_eq_some_of_nodup_keys (l : Doc) (hnd : (l.map Prod.fst).Nodup)
    {p : ℕ × ℕ} (hp : p ∈ l) : (l.find? fun q => q.1 == p.1) = some p := by
  induction l with
  | nil => cases hp
  | cons q rest ih =>
    have hnd2 : q.1 ∉ rest.map Prod.fst ∧ (rest.map Prod.fst).Nodup := by
      simpa using hnd
    rcases List.mem_cons.mp hp with h | h
    · subst h
      exact List.find?_cons_of_pos _ (by simp)
    · have hq : (q.1 == p.1) = false := by
        have h2 : p.1 ∈ rest.map Prod.fst := List.mem_map_of_mem Prod.fst h
        simp only [beq_eq_false_iff_ne, ne_eq]
        intro he
        exact hnd2.1 (he ▸ h2)
      rw [List.find?_cons_of_neg _ (by simp [hq])]
      exact ih hnd2.2 h

lemma dictGet_of_mem (doc : Doc) (hnd : (docIds doc).Nodup)
    {p : ℕ × ℕ} (hp : p ∈ doc) : dictGet doc p.1 = p.2 := by
  unfold dictGet
  have hrev : (doc.reverse.map Prod.fst).Nodup := by
    rw [List.map_reverse]
    exact List.nodup_reverse.mpr hnd
  rw [find?_eq_some_of_nodup_keys doc.reverse hrev (List.mem_reverse.mpr hp)]
  rfl

lemma doc_count_sum (doc : Doc) (hnd : (docIds doc).Nodup)
    (mu phi : Mat) (a k : ℕ) :
    (doc.map fun p => (p.2 : ℝ) * mu p.1 a * phi p.1 k).sum =
      ((docIds doc).map fun v =>
        (dictGet doc v : ℝ) * mu v a * phi v k).sum := by
  unfold docIds
  rw [List.map_map]
  apply congrArg List.sum
  apply List.map_congr_left
  intro p hp
  simp only [Function.comp]
  rw [dictGet_of_mem doc hnd hp]

end DictGet

/-- C2: in every inner iteration, for each author `a` of the document and
topic `k`, the updated `tilde_gamma[a,k]` is `alpha` plus
`len(author2doc[a])` times the sum over the document's words `v` of
`count(v) * mu[v,a] * phi[v,k]`, where `mu` and `phi` are the weights
just updated in the same iteration (the document's word-id list is
assumed duplicate-free, so that the positional counts `cts[vi]` coincide
with `count(v)`). -/
theorem C2_tilde_gamma_formula (M : ATModel) (doc : Doc) (authors : List ℕ)
    (Elogtheta Elogbeta : Mat) (l : LocState) (a k : ℕ)
    (ha : a ∈ authors) (hk : k < M.numTopics) (hnd : (docIds doc).Nodup) :
    (innerIter M doc authors Elogtheta Elogbeta l).tg a k =
      M.alpha + (M.a2dLen a : ℝ) *
        ((docIds doc).map fun v => (dictGet doc v : ℝ) *
          (innerIter M doc authors Elogtheta Elogbeta l).mu v a *
          (innerIter M doc authors Elogtheta Elogbeta l).phi v k).sum := by
  show gammaStep M doc authors
      (muStep M (docIds doc) authors Elogtheta
        (phiStep M (docIds doc) authors Elogtheta Elogbeta l.mu l.phi) l.mu)
      (phiStep M (docIds doc) authors Elogtheta Elogbeta l.mu l.phi)
      l.tg a k = _
  unfold gammaStep
  rw [if_pos ⟨ha, hk⟩]
  rw [doc_count_sum doc hnd _ _ a k]
  rfl

/-- C2 witness: the theorem applied to the concrete model `M0`, document
`[(0, 1)]`, author `0` and topic `0`. -/
theorem C2_witness :
    (0 ∈ ([0] : List ℕ)) ∧ 0 < M0.numTopics ∧ (docIds [(0, 1)]).Nodup ∧
    (innerIter M0 [(0, 1)] [0] E0 E0 l0).tg 0 0 =
      M0.alpha + (M0.a2dLen 0 : ℝ) *
        ((docIds [(0, 1)]).map fun v => (dictGet [(0, 1)] v : ℝ) *
          (innerIter M0 [(0, 1)] [0] E0 E0 l0).mu v 0 *
          (innerIter M0 [(0, 1)] [0] E0 E0 l0).phi v 0).sum :=
  ⟨by decide, by decide, by decide,
    C2_tilde_gamma_formula M0 [(0, 1)] [0] E0 E0 l0 0 0
      (by decide) (by decide) (by decide)⟩

/-- C7: evidence for the code slip in the derivation of `author2doc` from
`doc2author`: with the single document `0` written by author `5`, the
source's loop over `range(len(authors_ids))` produces the map
`{0: []}`, i.e. author `5` is dropped and a spurious author `0` with no
documents appears, so the two maps are not consistent. -/
theorem C7_inverse_derivation_drops_author :
    deriveAuthor2doc [(0, [5])] = [(0, [])] ∧
    (deriveAuthor2doc [(0, [5])]).find? (fun p => p.1 == 5) = none := by
  constructor
  · rfl
  · rfl

lemma initResult_none_corpus (id2word : Option (List ℕ))
    (author2doc doc2author : Option (List (ℕ × List ℕ))) :
    ∃ e, initResult none id2word author2doc doc2author = .error e := by
  rcases id2word with _ | keys
  · exact ⟨.noVocabSource, by simp [initResult]⟩
  · by_cases hk : numTermsOf none (some keys) = 0
    · exact ⟨.emptyVocab, by simp [initResult, hk]⟩
    · by_cases ha : author2doc = none ∧ doc2author = none
      · exact ⟨.noAuthorMap, by simp [initResult, hk, ha.1, ha.2]⟩
      · exact ⟨.noneCorpus, by simp [initResult, hk, ha]⟩

/-- C10: constructing the model with `corpus = None` always raises: either
one of the explicit `ValueError`s fires first, or execution reaches
`enumerate(corpus)` (line 77) or `len(corpus)` (line 127) and a
`TypeError` is raised, whatever `id2word` and the author maps are. -/
theorem C10_none_corpus_always_fails (id2word : Option (List ℕ))
    (author2doc doc2author : Option (List (ℕ × List ℕ))) :
    ∃ e, initResult none id2word author2doc doc2author = .error e :=
  initResult_none_corpus id2word author2doc doc2author

/-- C8 counterexample: the claim says construction fails when the corpus
is empty, but an empty corpus together with a non-empty `id2word` and an
`author2doc` map passes every check and the constructor succeeds. -/
theorem C8_counterexample_empty_corpus_accepted :
    initResult (some []) (some [0]) (some [(0, [])]) none =
      Except.ok (1, [(0, [])], [], 0) := rfl

/-- C8 (amended): construction succeeds iff the corpus is present (not
`None`), the computed vocabulary size is nonzero, and at least one of the
two author maps is supplied.  In particular the three explicit
configuration errors are exactly as the claim lists them, but an *empty*
corpus is only rejected indirectly (through the empty-vocabulary check
when `id2word` is absent), while `corpus = None` is additionally rejected
even though the claim lists no such case. -/
theorem C8_construction_failure_characterization
    (corpus : Option (List Doc)) (id2word : Option (List ℕ))
    (author2doc doc2author : Option (List (ℕ × List ℕ))) :
    (∃ r, initResult corpus id2word author2doc doc2author = .ok r) ↔
      (corpus ≠ none ∧ numTermsOf corpus id2word ≠ 0 ∧
        (author2doc ≠ none ∨ doc2author ≠ none)) := by
  rcases corpus with _ | cs
  · constructor
    · rintro ⟨r, hr⟩
      obtain ⟨e, he⟩ := initResult_none_corpus id2word author2doc doc2author
      rw [he] at hr
      cases hr
    · rintro ⟨h, -⟩
      exact absurd rfl h
  · by_cases hk : numTermsOf (some cs) id2word = 0
    · constructor
      · rintro ⟨r, hr⟩
        have : initResult (some cs) id2word author2doc doc2author =
            .error .emptyVocab := by
          simp [initResult, hk]
        rw [this] at hr
        cases hr
      · rintro ⟨-, hk2, -⟩
        exact absurd hk hk2
    · by_cases ha : author2doc = none ∧ doc2author = none
      · constructor
        · rintro ⟨r, hr⟩
          have : initResult (some cs) id2word author2doc doc2author =
              .error .noAuthorMap := by
            simp [initResult, hk, ha.1, ha.2]
          rw [this] at hr
          cases hr
        · rintro ⟨-, -, h⟩
          rcases h with h | h
          · exact absurd ha.1 h
          · exact absurd ha.2 h
      · constructor
        · rintro -
          refine ⟨by simp, hk, ?_⟩
          rcases author2doc with _ | m
          · rcases doc2author with _ | m2
            · exact absurd ⟨rfl, rfl⟩ ha
            · exact Or.inr (by simp)
          · exact Or.inl (by simp)
        · rintro -
          simp only [initResult]
          rw [if_neg (by simp), if_neg hk, if_neg ha]
          exact ⟨_, rfl⟩

/-- C8 witness: the amended characterization applied to a concrete
accepted configuration. -/
theorem C8_witness :
    ∃ r, initResult (some [[(0, 1)]]) (some [0]) (some [(0, [0])]) none = .ok r :=
  (C8_construction_failure_characterization (some [[(0, 1)]]) (some [0])
    (some [(0, [0])]) none).mpr ⟨by simp, by decide, Or.inl (by simp)⟩

/-- C9: for any author row of `gamma` and any supplied
`minimum_probability` (including `0`), `get_author_topics` returns exactly
the `(topic id, probability)` pairs of the normalized row whose
probability is at least `max(minimum_probability, 1e-8)`, in increasing
topic-id order, and in particular never returns a probability below
`1e-8`. -/
theorem C9_get_author_topics_characterization (row : List ℚ) (minP : ℚ) :
    (∀ k p, (k, p) ∈ getAuthorTopics row minP ↔
      ∃ h : k < row.length, p = row[k] / row.sum ∧
        max minP (1 / 100000000) ≤ p) ∧
    (getAuthorTopics row minP).Pairwise (fun x y => x.1 < y.1) ∧
    (∀ x ∈ getAuthorTopics row minP, (1 / 100000000 : ℚ) ≤ x.2) := by
  refine ⟨?_, ?_, ?_⟩
  · intro k p
    simp only [getAuthorTopics, List.mem_filter]
    constructor
    · rintro ⟨hmem, hp⟩
      rw [List.mem_enum_iff_getElem?, List.getElem?_eq_some_iff] at hmem
      obtain ⟨h, hval⟩ := hmem
      have hlen : k < row.length := by simpa using h
      refine ⟨hlen, ?_, ?_⟩
      · dsimp only at hval
        rw [← hval]
        simp
      · simpa using hp
    · rintro ⟨h, hval, hle⟩
      constructor
      · rw [List.mem_enum_iff_getElem?, List.getElem?_eq_some_iff]
        exact ⟨by simpa using h, by simp [hval]⟩
      · simpa using hle
  · apply List.Pairwise.filter
    rw [List.pairwise_iff_getElem]
    intro i j hi hj hij
    simp only [List.getElem_enum]
    simpa using hij
  · intro x hx
    simp only [getAuthorTopics, List.mem_filter] at hx
    have h2 : max minP (1 / 100000000) ≤ x.2 := by simpa using hx.2
    exact le_trans (le_max_right _ _) h2

/-- C9 witness: the theorem applied to the row `[1, 3]` with
`minimum_probability = 0`; the pair `(1, 3/4)` is returned and its
probability is above `1e-8`. -/
theorem C9_witness :
    ((1, (3 : ℚ) / 4) ∈ getAuthorTopics [1, 3] 0) ∧
    (1 / 100000000 : ℚ) ≤ (1, (3 : ℚ) / 4).2 := by
  obtain ⟨hiff, -, hlb⟩ := C9_get_author_topics_characterization [1, 3] 0
  have hmem : (1, (3 : ℚ) / 4) ∈ getAuthorTopics [1, 3] 0 := by
    rw [hiff 1 (3 / 4)]
    refine ⟨by norm_num, ?_, ?_⟩
    · norm_num
    · rw [max_eq_right (by norm_num : (0 : ℚ) ≤ 1 / 100000000)]
      norm_num
  exact ⟨hmem, hlb (1, (3 : ℚ) / 4) hmem⟩

end OnlineAtVb
